import Mathlib

/-!
Shallow embedding of the search subsystem of the `my-blog` repository
(Go server: `internal/blog/blog.go` / embedded `main.go` variant with the
tag-precedence path; JS client: `static/search.js`).

Text is modelled as `List Char` (ASCII is all the search core inspects:
the tokenizer regexp `[a-zA-Z0-9]+` only matches ASCII bytes).  Go's
`map[string]*Post` iteration order is unspecified, so functions that
iterate over the post map take the iteration order as an explicit
`List Post` argument; keyed lookups (`b.posts[id]`) are order-independent
and are modelled by structural lookup under a `Nodup` hypothesis on IDs.
`time.Time` with its total order `After` is modelled as `Int`.
`sort.Slice` with the `Date.After` comparator is modelled as a stable
insertion sort, which is exactly what Go runs on the small slices in the
examples considered here (Go uses insertion sort below 12 elements) and
is deterministic in its input order.
-/

namespace MyBlog

abbrev Str := List Char

/-- ASCII alphanumeric, the character class of the Go/JS tokenizer regexp
`[a-zA-Z0-9]+`. -/
def isAlnum (c : Char) : Bool :=
  (decide ('a' ≤ c) && decide (c ≤ 'z')) ||
  (decide ('A' ≤ c) && decide (c ≤ 'Z')) ||
  (decide ('0' ≤ c) && decide (c ≤ '9'))

/-- ASCII lowercasing of one character (`strings.ToLower` /
`String.prototype.toLowerCase` restricted to ASCII). -/
def lowerChar (c : Char) : Char :=
  if decide ('A' ≤ c) && decide (c ≤ 'Z') then Char.ofNat (c.toNat + 32) else c

/-- Model of `strings.ToLower` on ASCII text. -/
def lowerStr (s : Str) : Str := s.map lowerChar

/-- ASCII whitespace, as trimmed by `strings.TrimSpace` / `String.trim`. -/
def isSpaceA (c : Char) : Bool :=
  c = ' ' || c = '\t' || c = '\n' || c = '\x0b' || c = '\x0c' || c = '\r'

/-- Model of `strings.TrimSpace`: drop whitespace from both ends. -/
def trimA (s : Str) : Str :=
  ((s.dropWhile isSpaceA).reverse.dropWhile isSpaceA).reverse

/-- Model of `tokenize` (blog.go), also `BlogSearch.tokenize` (search.js)
minus the JS lowercasing: extract every maximal run of ASCII
alphanumerics, left to right, duplicates preserved — the semantics of
the regexp `[a-zA-Z0-9]+` with `FindAllString(text, -1)`. -/
def tokenize : Str → List Str
  | [] => []
  | c :: cs =>
    if isAlnum c then
      match cs, tokenize cs with
      | d :: _, t :: ts => if isAlnum d then (c :: t) :: ts else [c] :: t :: ts
      | _, _ => [[c]]
    else tokenize cs

/-- Model of `contains` (blog.go): linear membership scan. -/
def containsStr (slice : List Str) (item : Str) : Bool :=
  slice.any (fun s => s = item)

/-- Model of `intersection` (blog.go): keep the elements of `b` that occur in `a`,
in `b`'s order. -/
def intersection (a b : List Str) : List Str :=
  b.filter (fun item => containsStr a item)

/-- A blog post as the search core sees it: `ID`, `Title`, `Content`
(raw markdown body), `Tags`, `Date` (total order, modelled as `Int`). -/
structure Post where
  id : Str
  title : Str
  content : Str
  tags : List Str
  date : Int
deriving DecidableEq, Repr

/-- The inverted index `map[string][]string`, as a total function with
`[]` default (Go map indexing yields the zero value for missing keys). -/
abbrev Index := Str → List Str

def emptyIndex : Index := fun _ => []

/-- One step of `buildInvertedIndex`'s inner loop: append `pid` to the
posting list of `w` unless already present. -/
def indexInsert (idx : Index) (w pid : Str) : Index :=
  fun t =>
    if t = w then (if containsStr (idx w) pid then idx w else idx w ++ [pid])
    else idx t

/-- Model of `buildInvertedIndex` (blog.go): for each post (in map-iteration order
`posts`), tokenize `Title + " " + Content`, lowercase each word, and add
the post ID to that word's posting list if not already present. -/
def buildInvertedIndex (posts : List Post) : Index :=
  posts.foldl
    (fun idx post =>
      (tokenize (post.title ++ [' '] ++ post.content)).foldl
        (fun idx word => indexInsert idx (lowerStr word) post.id) idx)
    emptyIndex

/-- The search cache `map[string][]string`, as an association list keyed
by normalized query. -/
abbrev Cache := List (Str × List Str)

def emptyCache : Cache := []

/-- Go map read `b.searchCache.results[query]` with its `ok` flag. -/
def cacheGet : Cache → Str → Option (List Str)
  | [], _ => none
  | e :: rest, q => if e.1 = q then some e.2 else cacheGet rest q

/-- Go map write `b.searchCache.results[query] = ids`: update the key in
place if present, otherwise add it. -/
def cachePut : Cache → Str → List Str → Cache
  | [], q, ids => [(q, ids)]
  | e :: rest, q, ids =>
    if e.1 = q then (q, ids) :: rest else e :: cachePut rest q ids

/-- Insert into a list sorted by date descending, after earlier elements
of greater-or-equal date (stable). -/
def insertDesc (p : Post) : List Post → List Post
  | [] => [p]
  | q :: qs => if q.date ≤ p.date then p :: q :: qs else q :: insertDesc p qs

/-- Model of `sort.Slice` with the `Date.After` comparator: stable sort by date, newest first. -/
def sortByDateDesc : List Post → List Post
  | [] => []
  | p :: ps => insertDesc p (sortByDateDesc ps)

/-- Model of the Go map lookup `b.posts[id]` (key = post ID). -/
def findPost : List Post → Str → Option Post
  | [], _ => none
  | p :: rest, i => if p.id = i then some p else findPost rest i

/-- Model of `getPostsByIDs` (blog.go): map IDs back to posts, dropping missing
ones, then sort by date descending. -/
def getPostsByIDs (posts : List Post) (ids : List Str) : List Post :=
  sortByDateDesc (ids.filterMap (findPost posts))

/-- Model of `strings.EqualFold` restricted to ASCII. -/
def eqFold (a b : Str) : Bool := lowerStr a = lowerStr b

/-- The rest of the AND loop of `search` after the first word: intersect
with each further word's postings, breaking as soon as the running set is
empty. -/
def andLoopAux (idx : Index) (acc : List Str) : List Str → List Str
  | [] => acc
  | w :: ws =>
    let acc' := intersection acc (idx (lowerStr w))
    if acc' = [] then acc' else andLoopAux idx acc' ws

/-- The AND loop of `search`: the first word's postings seed the running
set (`nil` when there is no word), each further word intersects, with
early exit on empty. -/
def andLoop (idx : Index) : List Str → List Str
  | [] => []
  | w :: ws =>
    let acc := idx (lowerStr w)
    if acc = [] then acc else andLoopAux idx acc ws

/-- Which return of `search` produced the result (directly readable off
the source's control flow). -/
inductive SearchPath where
  | emptyQ | cacheHit | tagMatch | tokenAnd
deriving DecidableEq, Repr

structure SearchResult where
  res : List Post
  cache : Cache
  path : SearchPath
deriving Repr

/-- Model of `search` (blog.go, the variant with the tag path): normalize, check
cache, check exact tag match, else AND-intersect postings and write the
ID list to the cache.  `posts` is the map-iteration order of `b.posts`. -/
def search (posts : List Post) (idx : Index) (cache : Cache) (query : Str) :
    SearchResult :=
  let q := trimA (lowerStr query)
  if q = [] then ⟨[], cache, .emptyQ⟩
  else
    match cacheGet cache q with
    | some cachedIDs => ⟨getPostsByIDs posts cachedIDs, cache, .cacheHit⟩
    | none =>
      let trimmedQuery := trimA q
      let tagMatches := posts.filter (fun post => post.tags.any (fun tag => eqFold tag trimmedQuery))
      if tagMatches ≠ [] then ⟨sortByDateDesc tagMatches, cache, .tagMatch⟩
      else
        let words := tokenize q
        let matchingPostIDs := andLoop idx words
        ⟨getPostsByIDs posts matchingPostIDs, cachePut cache q matchingPostIDs, .tokenAnd⟩

end MyBlog

namespace MyBlog

/-- Substring test (JS `String.prototype.includes`): some suffix of `hay`
starts with `needle`. -/
def isSubstr (needle hay : Str) : Bool :=
  hay.tails.any (fun t => needle.isPrefixOf t)

/-- One addition to the JS suggestion `Set`: append unless present
(a JS `Set` preserves insertion order and deduplicates). -/
def addSugg (acc : List Str) (s : Str) : List Str :=
  if s ∈ acc then acc else acc ++ [s]

/-- Model of `BlogSearch.getSuggestions` (search.js): guard on empty raw
query and on normalized length below 2, then collect tags whose lowercase
form starts with the query, then titles whose lowercase form contains it,
into an insertion-ordered set, truncated to 10. -/
def getSuggestions (posts : List Post) (query : Str) : List Str :=
  if query = [] then []
  else
    let q := lowerStr (trimA query)
    if q.length < 2 then []
    else
      let withTags := posts.foldl (fun acc post =>
        post.tags.foldl (fun acc tag =>
          if q.isPrefixOf (lowerStr tag) then addSugg acc tag else acc) acc) []
      let withTitles := posts.foldl (fun acc post =>
        if isSubstr q (lowerStr post.title) then addSugg acc post.title else acc) withTags
      withTitles.take 10

/-- First-seen-order deduplication relative to already-seen strings. -/
def dedupNotIn (acc : List Str) : List Str → List Str
  | [] => []
  | s :: rest =>
    if s ∈ acc then dedupNotIn acc rest else s :: dedupNotIn (acc ++ [s]) rest

/-- First-seen-order deduplication, spec side ("deduplicates by exact
string; preserves first-seen order"). -/
def dedupFirst (l : List Str) : List Str := dedupNotIn [] l

/-- Spec side (§4.5): every tag whose lowercase form starts with the
prefix, in document order. -/
def tagCandidates (posts : List Post) (q : Str) : List Str :=
  posts.flatMap (fun p => p.tags.filter (fun t => q.isPrefixOf (lowerStr t)))

/-- Spec side (§4.5): every title whose lowercase form contains the
prefix as a substring, in document order. -/
def titleCandidates (posts : List Post) (q : Str) : List Str :=
  (posts.filter (fun p => isSubstr q (lowerStr p.title))).map (fun p => p.title)

/-- Spec side (§4.5): tag candidates then title candidates, first-seen
deduplication, truncated to 10. -/
def suggestSpec (posts : List Post) (q : Str) : List Str :=
  (dedupFirst (tagCandidates posts q ++ titleCandidates posts q)).take 10

/-- Occurrence of `w` as a maximal alphanumeric run of `text`: `w` is a
nonempty all-alphanumeric segment of `text` that cannot be extended on
either side. -/
def MaxRun (w text : Str) : Prop :=
  w ≠ [] ∧ (∀ c ∈ w, isAlnum c = true) ∧
  ∃ pre post, text = pre ++ w ++ post ∧
    (∀ c, pre.getLast? = some c → isAlnum c = false) ∧
    (∀ c, post.head? = some c → isAlnum c = false)

end MyBlog

namespace MyBlog

/-- Demo post with tag `go` (spec §8 tag-precedence example, `p1`). -/
def demoP1 : Post :=
  { id := "p1".data, title := [], content := [], tags := ["go".data], date := 1 }

/-- Demo post whose body contains the token `go` (spec §8, `p2`). -/
def demoP2 : Post :=
  { id := "p2".data, title := [], content := "go is great".data, tags := [], date := 2 }

/-- Demo post for the suggestion example: title `Go Programming`,
tag `go`. -/
def demoS1 : Post :=
  { id := "s1".data, title := "Go Programming".data, content := [],
    tags := ["go".data], date := 1 }

/-- Demo post for the suggestion example: title `Python Guide`,
tag `py`. -/
def demoS2 : Post :=
  { id := "s2".data, title := "Python Guide".data, content := [],
    tags := ["py".data], date := 2 }

/-- Demo index with postings `go -> [p1, p3]` and `rust -> [p2, p3]`
(spec §8 AND-semantics example). -/
def demoIdx : Index := fun t =>
  if t = "go".data then ["p1".data, "p3".data]
  else if t = "rust".data then ["p2".data, "p3".data]
  else []

/-- Relation "published at least as recently as": the order produced by
the date sort. -/
def DateGe (a b : Post) : Prop := b.date ≤ a.date

/-- Repeated calls to `search`, threading the cache (the collection and
index stay fixed), as the server does across requests. -/
def runQueries (posts : List Post) (idx : Index) : Cache → List Str → Cache
  | cache, [] => cache
  | cache, q :: qs => runQueries posts idx (search posts idx cache q).cache qs

/-- Two demo posts sharing tag `go` and an equal date, to probe the
tie-break behaviour. -/
def demoE1 : Post :=
  { id := "e1".data, title := [], content := [], tags := ["go".data], date := 5 }

/-- Second demo post with the same tag and date as `demoE1`. -/
def demoE2 : Post :=
  { id := "e2".data, title := [], content := [], tags := ["go".data], date := 5 }

/-- Demo post tagged `go` whose date ties with the untagged `demoP2`:
only the matched post needs a distinct date. -/
def demoF1 : Post :=
  { id := "f1".data, title := [], content := [], tags := ["go".data], date := 2 }

/-- Strict "more recent or identical" relation used for sort uniqueness. -/
def DStrict (a b : Post) : Prop := b.date < a.date ∨ a = b

instance : IsAntisymm Post DStrict where
  antisymm := by
    rintro a b (h1 | rfl) (h2 | h2)
    · exact absurd h2 (lt_asymm h1)
    · exact h2.symm
    · rfl
    · rfl

end MyBlog

namespace MyBlog

/-! ### Cache lemmas -/

theorem cacheGet_cachePut_self (cache : Cache) (q : Str) (ids : List Str) :
    cacheGet (cachePut cache q ids) q = some ids := by
  induction cache with
  | nil => simp [cachePut, cacheGet]
  | cons e rest ih =>
    by_cases h : e.1 = q
    · rw [cachePut, if_pos h, cacheGet, if_pos rfl]
    · rw [cachePut, if_neg h, cacheGet, if_neg h]
      exact ih

theorem cacheGet_cachePut_other (cache : Cache) {q k : Str} (hne : k ≠ q)
    (ids : List Str) : cacheGet (cachePut cache q ids) k = cacheGet cache k := by
  have hqk : ¬ (q = k) := fun h => hne h.symm
  induction cache with
  | nil => simp [cachePut, cacheGet, hqk]
  | cons e rest ih =>
    by_cases h : e.1 = q
    · rw [cachePut, if_pos h, cacheGet, if_neg hqk, cacheGet,
          if_neg (fun hk => hqk (h.symm.trans hk))]
    · rw [cachePut, if_neg h]
      by_cases hk : e.1 = k
      · rw [cacheGet, if_pos hk, cacheGet, if_pos hk]
      · rw [cacheGet, if_neg hk, cacheGet, if_neg hk]
        exact ih

/-! ### Intersection and the AND loop -/

theorem containsStr_iff {l : List Str} {x : Str} : containsStr l x = true ↔ x ∈ l := by
  unfold containsStr
  rw [List.any_eq_true]
  constructor
  · rintro ⟨s, hs, he⟩
    have hsx : s = x := by simpa using he
    exact hsx ▸ hs
  · intro hx
    exact ⟨x, hx, by simp⟩

theorem mem_intersection {a b : List Str} {x : Str} :
    x ∈ intersection a b ↔ x ∈ b ∧ x ∈ a := by
  unfold intersection
  rw [List.mem_filter, containsStr_iff]

theorem andLoopAux_cons (idx : Index) (acc : List Str) (w : Str) (ws : List Str) :
    andLoopAux idx acc (w :: ws) =
      if intersection acc (idx (lowerStr w)) = []
      then intersection acc (idx (lowerStr w))
      else andLoopAux idx (intersection acc (idx (lowerStr w))) ws := rfl

theorem andLoop_cons (idx : Index) (w : Str) (ws : List Str) :
    andLoop idx (w :: ws) =
      if idx (lowerStr w) = [] then idx (lowerStr w)
      else andLoopAux idx (idx (lowerStr w)) ws := rfl

theorem mem_andLoopAux (idx : Index) (ws : List Str) :
    ∀ acc x, x ∈ andLoopAux idx acc ws ↔ x ∈ acc ∧ ∀ w ∈ ws, x ∈ idx (lowerStr w) := by
  induction ws with
  | nil => intro acc x; simp [andLoopAux]
  | cons w ws ih =>
    intro acc x
    rw [andLoopAux_cons]
    by_cases h : intersection acc (idx (lowerStr w)) = []
    · rw [if_pos h, h]
      constructor
      · intro hx; exact absurd hx (List.not_mem_nil x)
      · rintro ⟨hacc, hall⟩
        have hx : x ∈ intersection acc (idx (lowerStr w)) :=
          mem_intersection.mpr ⟨hall w (List.mem_cons_self w ws), hacc⟩
        rw [h] at hx
        exact absurd hx (List.not_mem_nil x)
    · rw [if_neg h, ih, mem_intersection]
      constructor
      · rintro ⟨⟨hw, hacc⟩, hall⟩
        refine ⟨hacc, ?_⟩
        intro u hu
        rcases List.mem_cons.mp hu with rfl | hu
        · exact hw
        · exact hall u hu
      · rintro ⟨hacc, hall⟩
        exact ⟨⟨hall w (List.mem_cons_self w ws), hacc⟩,
               fun u hu => hall u (List.mem_cons_of_mem w hu)⟩

theorem mem_andLoop {idx : Index} {words : List Str} (hne : words ≠ []) {x : Str} :
    x ∈ andLoop idx words ↔ ∀ w ∈ words, x ∈ idx (lowerStr w) := by
  cases words with
  | nil => exact absurd rfl hne
  | cons w ws =>
    rw [andLoop_cons]
    by_cases h : idx (lowerStr w) = []
    · rw [if_pos h, h]
      constructor
      · intro hx; exact absurd hx (List.not_mem_nil x)
      · intro hall
        have hx := hall w (List.mem_cons_self w ws)
        rw [h] at hx
        exact absurd hx (List.not_mem_nil x)
    · rw [if_neg h, mem_andLoopAux]
      constructor
      · rintro ⟨hw, hall⟩ u hu
        rcases List.mem_cons.mp hu with rfl | hu
        · exact hw
        · exact hall u hu
      · intro hall
        exact ⟨hall w (List.mem_cons_self w ws),
               fun u hu => hall u (List.mem_cons_of_mem w hu)⟩

/-! ### Sorting lemmas -/

theorem insertDesc_perm (p : Post) :
    ∀ l : List Post, List.Perm (insertDesc p l) (p :: l) := by
  intro l
  induction l with
  | nil => simp [insertDesc]
  | cons q qs ih =>
    by_cases h : q.date ≤ p.date
    · simp [insertDesc, h]
    · rw [insertDesc, if_neg h]
      exact (ih.cons q).trans (List.Perm.swap p q qs)

theorem sortByDateDesc_perm : ∀ l : List Post, List.Perm (sortByDateDesc l) l := by
  intro l
  induction l with
  | nil => simp [sortByDateDesc]
  | cons p ps ih => exact (insertDesc_perm p (sortByDateDesc ps)).trans (ih.cons p)

theorem mem_sortByDateDesc {l : List Post} {x : Post} :
    x ∈ sortByDateDesc l ↔ x ∈ l := (sortByDateDesc_perm l).mem_iff

theorem mem_insertDesc {p x : Post} {l : List Post} :
    x ∈ insertDesc p l ↔ x = p ∨ x ∈ l := by
  rw [(insertDesc_perm p l).mem_iff, List.mem_cons]

theorem sorted_insertDesc (p : Post) :
    ∀ l : List Post, l.Pairwise DateGe → (insertDesc p l).Pairwise DateGe := by
  intro l
  induction l with
  | nil => intro _; simp [insertDesc, DateGe]
  | cons q qs ih =>
    intro h
    rcases List.pairwise_cons.mp h with ⟨hq, hqs⟩
    by_cases hle : q.date ≤ p.date
    · rw [insertDesc, if_pos hle]
      refine List.pairwise_cons.mpr ⟨?_, h⟩
      intro y hy
      rcases List.mem_cons.mp hy with rfl | hy
      · exact hle
      · exact (hq y hy).trans hle
    · rw [insertDesc, if_neg hle]
      refine List.pairwise_cons.mpr ⟨?_, ih hqs⟩
      intro y hy
      rcases mem_insertDesc.mp hy with rfl | hy
      · exact le_of_lt (lt_of_not_le hle)
      · exact hq y hy

theorem sorted_sortByDateDesc : ∀ l : List Post, (sortByDateDesc l).Pairwise DateGe := by
  intro l
  induction l with
  | nil => simp [sortByDateDesc]
  | cons p ps ih => exact sorted_insertDesc p (sortByDateDesc ps) ih

/-! ### Post lookup by unique ID -/

theorem findPost_eq_some_iff : ∀ {posts : List Post},
    (posts.map Post.id).Nodup → ∀ {i : Str} {p : Post},
    (findPost posts i = some p ↔ p ∈ posts ∧ p.id = i) := by
  intro posts
  induction posts with
  | nil => intro _ i p; simp [findPost]
  | cons a rest ih =>
    intro hnd i p
    rw [List.map_cons, List.nodup_cons] at hnd
    obtain ⟨hnotin, hrest⟩ := hnd
    by_cases hai : a.id = i
    · rw [findPost, if_pos hai]
      constructor
      · intro h
        have hap : a = p := by simpa using h
        subst hap
        exact ⟨List.mem_cons_self a rest, hai⟩
      · rintro ⟨hp, hpi⟩
        rcases List.mem_cons.mp hp with rfl | hp
        · rfl
        · have hmem : p.id ∈ rest.map Post.id := List.mem_map_of_mem Post.id hp
          rw [hpi, ← hai] at hmem
          exact absurd hmem hnotin
    · rw [findPost, if_neg hai, ih hrest]
      constructor
      · rintro ⟨hp, hpi⟩
        exact ⟨List.mem_cons_of_mem a hp, hpi⟩
      · rintro ⟨hp, hpi⟩
        rcases List.mem_cons.mp hp with rfl | hp
        · exact absurd hpi hai
        · exact ⟨hp, hpi⟩

theorem findPost_eq_none_iff {posts : List Post} {i : Str} :
    findPost posts i = none ↔ ∀ p ∈ posts, p.id ≠ i := by
  induction posts with
  | nil => simp [findPost]
  | cons a rest ih =>
    by_cases hai : a.id = i
    · rw [findPost, if_pos hai]
      constructor
      · intro h; exact absurd h (by simp)
      · intro h; exact absurd hai (h a (List.mem_cons_self a rest))
    · rw [findPost, if_neg hai, ih]
      constructor
      · intro h p hp
        rcases List.mem_cons.mp hp with rfl | hp
        · exact hai
        · exact h p hp
      · intro h p hp
        exact h p (List.mem_cons_of_mem a hp)

theorem findPost_perm {posts₁ posts₂ : List Post} (hperm : List.Perm posts₁ posts₂)
    (hnd : (posts₁.map Post.id).Nodup) (i : Str) :
    findPost posts₁ i = findPost posts₂ i := by
  have hnd₂ : (posts₂.map Post.id).Nodup := ((hperm.map Post.id).nodup_iff).mp hnd
  cases h : findPost posts₂ i with
  | some p =>
    rcases (findPost_eq_some_iff hnd₂).mp h with ⟨hp, hpi⟩
    exact (findPost_eq_some_iff hnd).mpr ⟨hperm.mem_iff.mpr hp, hpi⟩
  | none =>
    rw [findPost_eq_none_iff] at h ⊢
    intro p hp
    exact h p (hperm.mem_iff.mp hp)

end MyBlog


namespace MyBlog

/-! ### Tokenizer lemmas: equations and the span form -/

theorem tokenize_cons (c : Char) (cs : Str) :
    tokenize (c :: cs) =
      if isAlnum c then
        match cs, tokenize cs with
        | d :: _, t :: ts => if isAlnum d then (c :: t) :: ts else [c] :: t :: ts
        | _, _ => [[c]]
      else tokenize cs := rfl

theorem tokenize_cons_neg {c : Char} (h : isAlnum c = false) (cs : Str) :
    tokenize (c :: cs) = tokenize cs := by
  rw [tokenize_cons, h]
  simp

theorem tokenize_cons_cons_pos {c d : Char} (h : isAlnum c = true)
    (hd : isAlnum d = true) {cs' : Str} {t : Str} {ts : List Str}
    (htl : tokenize (d :: cs') = t :: ts) :
    tokenize (c :: d :: cs') = (c :: t) :: ts := by
  rw [tokenize_cons, h, htl]
  simp [hd]

theorem tokenize_cons_cons_neg {c d : Char} (h : isAlnum c = true)
    (hd : isAlnum d = false) (cs' : Str) :
    tokenize (c :: d :: cs') = [c] :: tokenize (d :: cs') := by
  rw [tokenize_cons, h]
  cases htl : tokenize (d :: cs') with
  | nil => simp
  | cons t ts => simp [hd]

theorem tokenize_singleton {c : Char} (h : isAlnum c = true) :
    tokenize [c] = [[c]] := by
  rw [tokenize_cons, h]
  simp

theorem takeWhile_cons_pos {p : Char → Bool} {a : Char} (h : p a = true) (l : Str) :
    (a :: l).takeWhile p = a :: l.takeWhile p := by
  simp [List.takeWhile_cons, h]

theorem takeWhile_cons_neg {p : Char → Bool} {a : Char} (h : p a = false) (l : Str) :
    (a :: l).takeWhile p = [] := by
  simp [List.takeWhile_cons, h]

theorem dropWhile_cons_pos {p : Char → Bool} {a : Char} (h : p a = true) (l : Str) :
    (a :: l).dropWhile p = l.dropWhile p := by
  simp [List.dropWhile_cons, h]

theorem dropWhile_cons_neg {p : Char → Bool} {a : Char} (h : p a = false) (l : Str) :
    (a :: l).dropWhile p = a :: l := by
  simp [List.dropWhile_cons, h]

theorem tokenize_span : ∀ (cs : Str) (c : Char), isAlnum c = true →
    tokenize (c :: cs) =
      ((c :: cs).takeWhile isAlnum) :: tokenize ((c :: cs).dropWhile isAlnum) := by
  intro cs
  induction cs with
  | nil =>
    intro c h
    rw [tokenize_singleton h, takeWhile_cons_pos h, dropWhile_cons_pos h]
    rfl
  | cons d cs' ih =>
    intro c h
    cases hd : isAlnum d with
    | true =>
      have htl := ih d hd
      rw [takeWhile_cons_pos h, dropWhile_cons_pos h,
          tokenize_cons_cons_pos h hd htl, takeWhile_cons_pos hd]
    | false =>
      rw [tokenize_cons_cons_neg h hd, takeWhile_cons_pos h, dropWhile_cons_pos h,
          takeWhile_cons_neg hd, dropWhile_cons_neg hd]

end MyBlog

namespace MyBlog

/-! ### Maximal-run support lemmas -/

theorem tokenize_nil : tokenize [] = [] := rfl

theorem takeWhile_all {p : Char → Bool} : ∀ (l : Str), ∀ c ∈ l.takeWhile p, p c = true := by
  intro l
  induction l with
  | nil => intro c hc; simp [List.takeWhile] at hc
  | cons a l ih =>
    intro c hc
    cases hpa : p a with
    | true =>
      rw [takeWhile_cons_pos hpa] at hc
      rcases List.mem_cons.mp hc with rfl | hc
      · exact hpa
      · exact ih c hc
    | false =>
      rw [takeWhile_cons_neg hpa] at hc
      exact absurd hc (List.not_mem_nil c)

theorem dropWhile_head_neg {p : Char → Bool} : ∀ (l : Str) {c : Char},
    (l.dropWhile p).head? = some c → p c = false := by
  intro l
  induction l with
  | nil => intro c h; simp [List.dropWhile] at h
  | cons a l ih =>
    intro c h
    cases hpa : p a with
    | true =>
      rw [dropWhile_cons_pos hpa] at h
      exact ih h
    | false =>
      rw [dropWhile_cons_neg hpa] at h
      obtain rfl : a = c := by simpa using h
      exact hpa

theorem takeWhile_append_all {p : Char → Bool} : ∀ (w post : Str),
    (∀ c ∈ w, p c = true) → (∀ c, post.head? = some c → p c = false) →
    (w ++ post).takeWhile p = w := by
  intro w
  induction w with
  | nil =>
    intro post _ hpost
    cases post with
    | nil => rfl
    | cons a post' => rw [List.nil_append, takeWhile_cons_neg (hpost a rfl)]
  | cons b w' ih =>
    intro post hall hpost
    rw [List.cons_append, takeWhile_cons_pos (hall b (List.mem_cons_self b w')),
        ih post (fun c hc => hall c (List.mem_cons_of_mem b hc)) hpost]

theorem dropWhile_append_all {p : Char → Bool} : ∀ (w post : Str),
    (∀ c ∈ w, p c = true) → (∀ c, post.head? = some c → p c = false) →
    (w ++ post).dropWhile p = post := by
  intro w
  induction w with
  | nil =>
    intro post _ hpost
    cases post with
    | nil => rfl
    | cons a post' => rw [List.nil_append, dropWhile_cons_neg (hpost a rfl)]
  | cons b w' ih =>
    intro post hall hpost
    rw [List.cons_append, dropWhile_cons_pos (hall b (List.mem_cons_self b w'))]
    exact ih post (fun c hc => hall c (List.mem_cons_of_mem b hc)) hpost

theorem length_dropWhile_le_len {p : Char → Bool} :
    ∀ (l : Str), (l.dropWhile p).length ≤ l.length := by
  intro l
  induction l with
  | nil => simp [List.dropWhile]
  | cons a l ih =>
    cases hpa : p a with
    | true =>
      rw [dropWhile_cons_pos hpa, List.length_cons]
      exact le_trans ih (Nat.le_succ _)
    | false =>
      rw [dropWhile_cons_neg hpa]

theorem dropWhile_keep_last {p : Char → Bool} : ∀ (pre : Str) {l0 : Char},
    pre.getLast? = some l0 → p l0 = false →
    (∀ X : Str, (pre ++ X).dropWhile p = pre.dropWhile p ++ X) ∧
    pre.dropWhile p ≠ [] ∧ (pre.dropWhile p).getLast? = pre.getLast? := by
  intro pre
  induction pre with
  | nil => intro l0 h _; simp at h
  | cons a pre' ih =>
    intro l0 h hl0
    cases pre' with
    | nil =>
      obtain rfl : a = l0 := by simpa using h
      refine ⟨?_, ?_, ?_⟩
      · intro X
        simp [List.dropWhile_cons, hl0]
      · rw [dropWhile_cons_neg hl0]; simp
      · rw [dropWhile_cons_neg hl0]
    | cons b pre'' =>
      have hlast : (b :: pre'').getLast? = some l0 := by
        rw [List.getLast?_cons_cons] at h
        exact h
      obtain ⟨ih1, ih2, ih3⟩ := ih hlast hl0
      cases hpa : p a with
      | false =>
        refine ⟨?_, ?_, ?_⟩
        · intro X
          rw [List.cons_append, dropWhile_cons_neg hpa, dropWhile_cons_neg hpa]
          simp
        · rw [dropWhile_cons_neg hpa]; simp
        · rw [dropWhile_cons_neg hpa]
      | true =>
        refine ⟨?_, ?_, ?_⟩
        · intro X
          rw [List.cons_append, dropWhile_cons_pos hpa, dropWhile_cons_pos hpa]
          exact ih1 X
        · rw [dropWhile_cons_pos hpa]; exact ih2
        · rw [dropWhile_cons_pos hpa, ih3, List.getLast?_cons_cons]

/-! ### Tokenize yields exactly the maximal alphanumeric runs -/

theorem maxRun_cons_not_alnum {c : Char} (hc : isAlnum c = false) {w cs : Str} :
    MaxRun w cs → MaxRun w (c :: cs) := by
  rintro ⟨hne, hall, pre, post, heq, hpre, hpost⟩
  refine ⟨hne, hall, c :: pre, post, by rw [heq]; simp, ?_, hpost⟩
  intro e he
  cases pre with
  | nil =>
    obtain rfl : c = e := by simpa using he
    exact hc
  | cons p0 pre' =>
    rw [List.getLast?_cons_cons] at he
    exact hpre e he

theorem maxRun_prepend_run {R rest w : Str} (_hRall : ∀ c ∈ R, isAlnum c = true)
    (hrest : ∀ c, rest.head? = some c → isAlnum c = false)
    (hmr : MaxRun w rest) : MaxRun w (R ++ rest) := by
  obtain ⟨hne, hall, pre, post, heq, hpre, hpost⟩ := hmr
  have hprene : pre ≠ [] := by
    intro h0
    subst h0
    cases w with
    | nil => exact hne rfl
    | cons w0 w' =>
      have hw0 : isAlnum w0 = false := hrest w0 (by rw [heq]; rfl)
      have hw0' : isAlnum w0 = true := hall w0 (List.mem_cons_self w0 w')
      rw [hw0'] at hw0
      exact absurd hw0 (by simp)
  refine ⟨hne, hall, R ++ pre, post, by rw [heq]; simp, ?_, hpost⟩
  intro e he
  rw [List.getLast?_append_of_ne_nil R hprene] at he
  exact hpre e he

theorem maxRun_of_mem_tokenize : ∀ (n : ℕ) (text : Str), text.length ≤ n →
    ∀ {w : Str}, w ∈ tokenize text → MaxRun w text := by
  intro n
  induction n with
  | zero =>
    intro text hlen w hw
    have h0 : text = [] := List.length_eq_zero.mp (Nat.le_zero.mp hlen)
    subst h0
    rw [tokenize_nil] at hw
    exact absurd hw (List.not_mem_nil w)
  | succ n ih =>
    intro text hlen w hw
    cases text with
    | nil =>
      rw [tokenize_nil] at hw
      exact absurd hw (List.not_mem_nil w)
    | cons c cs =>
      have hcs : cs.length ≤ n := by
        rw [List.length_cons] at hlen
        omega
      cases hc : isAlnum c with
      | false =>
        rw [tokenize_cons_neg hc] at hw
        exact maxRun_cons_not_alnum hc (ih cs hcs hw)
      | true =>
        rw [tokenize_span cs c hc] at hw
        rcases List.mem_cons.mp hw with rfl | hw
        · refine ⟨?_, takeWhile_all (c :: cs), [], (c :: cs).dropWhile isAlnum, ?_, ?_, ?_⟩
          · rw [takeWhile_cons_pos hc]; simp
          · rw [List.nil_append]
            exact (List.takeWhile_append_dropWhile isAlnum (c :: cs)).symm
          · intro e he; simp at he
          · exact fun e he => dropWhile_head_neg (c :: cs) he
        · have hlen' : ((c :: cs).dropWhile isAlnum).length ≤ n := by
            rw [dropWhile_cons_pos hc]
            exact le_trans (length_dropWhile_le_len cs) hcs
          have hrest := ih ((c :: cs).dropWhile isAlnum) hlen' hw
          have htext : (c :: cs) =
              (c :: cs).takeWhile isAlnum ++ (c :: cs).dropWhile isAlnum :=
            (List.takeWhile_append_dropWhile isAlnum (c :: cs)).symm
          rw [htext]
          exact maxRun_prepend_run (takeWhile_all (c :: cs))
            (fun e he => dropWhile_head_neg (c :: cs) he) hrest

theorem mem_tokenize_front : ∀ (w post : Str), w ≠ [] →
    (∀ c ∈ w, isAlnum c = true) → (∀ c, post.head? = some c → isAlnum c = false) →
    w ∈ tokenize (w ++ post) := by
  intro w post hne hall hpost
  cases w with
  | nil => exact absurd rfl hne
  | cons w0 w' =>
    have hw0 := hall w0 (List.mem_cons_self w0 w')
    rw [List.cons_append, tokenize_span (w' ++ post) w0 hw0]
    have htake : (w0 :: (w' ++ post)).takeWhile isAlnum = w0 :: w' := by
      rw [← List.cons_append]
      exact takeWhile_append_all (w0 :: w') post hall hpost
    rw [htake]
    exact List.mem_cons_self _ _

theorem mem_tokenize_of_maxRun_aux : ∀ (n : ℕ) (pre : Str), pre.length ≤ n →
    ∀ (w post : Str), w ≠ [] → (∀ c ∈ w, isAlnum c = true) →
    (∀ c, pre.getLast? = some c → isAlnum c = false) →
    (∀ c, post.head? = some c → isAlnum c = false) →
    w ∈ tokenize (pre ++ w ++ post) := by
  intro n
  induction n with
  | zero =>
    intro pre hlen w post hne hall _ hpost
    have h0 : pre = [] := List.length_eq_zero.mp (Nat.le_zero.mp hlen)
    subst h0
    rw [List.nil_append]
    exact mem_tokenize_front w post hne hall hpost
  | succ n ih =>
    intro pre hlen w post hne hall hpre hpost
    cases pre with
    | nil =>
      rw [List.nil_append]
      exact mem_tokenize_front w post hne hall hpost
    | cons c pre' =>
      have hlen' : pre'.length ≤ n := by
        rw [List.length_cons] at hlen
        omega
      cases hc : isAlnum c with
      | false =>
        have hpre' : ∀ e, pre'.getLast? = some e → isAlnum e = false := by
          intro e he
          cases pre' with
          | nil => simp at he
          | cons p0 ps =>
            refine hpre e ?_
            rw [List.getLast?_cons_cons]
            exact he
        rw [show ((c :: pre') ++ w ++ post : Str) = c :: (pre' ++ w ++ post) from by simp,
            tokenize_cons_neg hc]
        exact ih pre' hlen' w post hne hall hpre' hpost
      | true =>
        cases pre' with
        | nil =>
          have : isAlnum c = false := hpre c (by simp)
          rw [this] at hc
          exact absurd hc (by simp)
        | cons p0 ps =>
          have hlast0 : ∀ e, (p0 :: ps).getLast? = some e → isAlnum e = false := by
            intro e he
            refine hpre e ?_
            rw [List.getLast?_cons_cons]
            exact he
          obtain ⟨l0, hl0⟩ : ∃ e, (p0 :: ps).getLast? = some e := by
            cases hg : (p0 :: ps).getLast? with
            | none => rw [List.getLast?_eq_none_iff] at hg; exact absurd hg (by simp)
            | some e => exact ⟨e, rfl⟩
          have hl0f : isAlnum l0 = false := hlast0 l0 hl0
          obtain ⟨hK1, -, hK3⟩ := dropWhile_keep_last (p0 :: ps) hl0 hl0f
          have hpre2 : ∀ e, ((p0 :: ps).dropWhile isAlnum).getLast? = some e →
              isAlnum e = false := by
            intro e he
            rw [hK3] at he
            exact hlast0 e he
          have hlen2 : ((p0 :: ps).dropWhile isAlnum).length ≤ n :=
            le_trans (length_dropWhile_le_len (p0 :: ps)) hlen'
          have hmem := ih ((p0 :: ps).dropWhile isAlnum) hlen2 w post hne hall hpre2 hpost
          rw [show ((c :: p0 :: ps) ++ w ++ post : Str) =
                c :: ((p0 :: ps) ++ w ++ post) from by simp,
              tokenize_span ((p0 :: ps) ++ w ++ post) c hc]
          refine List.mem_cons_of_mem _ ?_
          rw [dropWhile_cons_pos hc, List.append_assoc, hK1 (w ++ post),
              ← List.append_assoc]
          exact hmem

theorem mem_tokenize_iff {text w : Str} : w ∈ tokenize text ↔ MaxRun w text := by
  constructor
  · exact fun hw => maxRun_of_mem_tokenize text.length text (le_refl _) hw
  · rintro ⟨hne, hall, pre, post, heq, hpre, hpost⟩
    rw [heq]
    exact mem_tokenize_of_maxRun_aux pre.length pre (le_refl _) w post hne hall hpre hpost

end MyBlog

namespace MyBlog

/-! ### Inverted index: membership and no-duplicates invariants -/

theorem mem_indexInsert {idx : Index} {w pid t x : Str} :
    x ∈ indexInsert idx w pid t ↔ x ∈ idx t ∨ (t = w ∧ x = pid) := by
  unfold indexInsert
  by_cases htw : t = w
  · subst htw
    rw [if_pos rfl]
    by_cases hc : containsStr (idx t) pid = true
    · rw [if_pos hc]
      constructor
      · intro hx; exact Or.inl hx
      · rintro (hx | ⟨-, rfl⟩)
        · exact hx
        · exact containsStr_iff.mp hc
    · rw [if_neg hc, List.mem_append]
      constructor
      · rintro (hx | hx)
        · exact Or.inl hx
        · right
          exact ⟨rfl, by simpa using hx⟩
      · rintro (hx | ⟨-, rfl⟩)
        · exact Or.inl hx
        · right; simp
  · rw [if_neg htw]
    constructor
    · exact Or.inl
    · rintro (hx | ⟨rfl, rfl⟩)
      · exact hx
      · exact absurd rfl htw

theorem mem_wordFold {pid : Str} : ∀ (words : List Str) (idx : Index) (t x : Str),
    (x ∈ (words.foldl (fun i word => indexInsert i (lowerStr word) pid) idx) t ↔
      x ∈ idx t ∨ (x = pid ∧ ∃ w ∈ words, lowerStr w = t)) := by
  intro words
  induction words with
  | nil => intro idx t x; simp
  | cons w ws ih =>
    intro idx t x
    rw [List.foldl_cons, ih, mem_indexInsert]
    constructor
    · rintro ((hx | ⟨ht, hx⟩) | ⟨rfl, u, hu, hut⟩)
      · exact Or.inl hx
      · exact Or.inr ⟨hx, w, List.mem_cons_self w ws, ht.symm⟩
      · exact Or.inr ⟨rfl, u, List.mem_cons_of_mem w hu, hut⟩
    · rintro (hx | ⟨rfl, u, hu, hut⟩)
      · exact Or.inl (Or.inl hx)
      · rcases List.mem_cons.mp hu with rfl | hu
        · exact Or.inl (Or.inr ⟨hut.symm, rfl⟩)
        · exact Or.inr ⟨rfl, u, hu, hut⟩

theorem mem_postFold : ∀ (posts : List Post) (idx : Index) (t x : Str),
    (x ∈ (posts.foldl
        (fun i post => (tokenize (post.title ++ [' '] ++ post.content)).foldl
          (fun i word => indexInsert i (lowerStr word) post.id) i) idx) t ↔
      x ∈ idx t ∨ ∃ p ∈ posts, x = p.id ∧
        ∃ w ∈ tokenize (p.title ++ [' '] ++ p.content), lowerStr w = t) := by
  intro posts
  induction posts with
  | nil => intro idx t x; simp
  | cons p ps ih =>
    intro idx t x
    rw [List.foldl_cons, ih, mem_wordFold]
    constructor
    · rintro ((hx | ⟨hx, u, hu, hut⟩) | ⟨q, hq, hxq, u, hu, hut⟩)
      · exact Or.inl hx
      · exact Or.inr ⟨p, List.mem_cons_self p ps, hx, u, hu, hut⟩
      · exact Or.inr ⟨q, List.mem_cons_of_mem p hq, hxq, u, hu, hut⟩
    · rintro (hx | ⟨q, hq, hxq, u, hu, hut⟩)
      · exact Or.inl (Or.inl hx)
      · rcases List.mem_cons.mp hq with rfl | hq
        · exact Or.inl (Or.inr ⟨hxq, u, hu, hut⟩)
        · exact Or.inr ⟨q, hq, hxq, u, hu, hut⟩

theorem mem_buildInvertedIndex {posts : List Post} {t x : Str} :
    x ∈ buildInvertedIndex posts t ↔
      ∃ p ∈ posts, x = p.id ∧
        ∃ w ∈ tokenize (p.title ++ [' '] ++ p.content), lowerStr w = t := by
  unfold buildInvertedIndex
  rw [mem_postFold]
  simp [emptyIndex]

theorem nodup_indexInsert {idx : Index} (h : ∀ t, (idx t).Nodup) (w pid : Str) :
    ∀ t, (indexInsert idx w pid t).Nodup := by
  intro t
  unfold indexInsert
  by_cases htw : t = w
  · subst htw
    rw [if_pos rfl]
    by_cases hc : containsStr (idx t) pid = true
    · rw [if_pos hc]; exact h t
    · rw [if_neg hc]
      have hpid : pid ∉ idx t := fun hm => hc (containsStr_iff.mpr hm)
      refine List.Nodup.append (h t) (List.nodup_singleton pid) ?_
      intro a ha hb
      have hab : a = pid := by simpa using hb
      subst hab
      exact hpid ha
  · rw [if_neg htw]; exact h t

theorem nodup_wordFold {pid : Str} : ∀ (words : List Str) (idx : Index),
    (∀ t, (idx t).Nodup) →
    ∀ t, ((words.foldl (fun i word => indexInsert i (lowerStr word) pid) idx) t).Nodup := by
  intro words
  induction words with
  | nil => intro idx h t; exact h t
  | cons w ws ih =>
    intro idx h t
    rw [List.foldl_cons]
    exact ih _ (nodup_indexInsert h (lowerStr w) pid) t

theorem nodup_buildInvertedIndex (posts : List Post) :
    ∀ t, (buildInvertedIndex posts t).Nodup := by
  unfold buildInvertedIndex
  have hgen : ∀ (ps : List Post) (idx : Index), (∀ t, (idx t).Nodup) →
      ∀ t, ((ps.foldl
        (fun i post => (tokenize (post.title ++ [' '] ++ post.content)).foldl
          (fun i word => indexInsert i (lowerStr word) post.id) i) idx) t).Nodup := by
    intro ps
    induction ps with
    | nil => intro idx h t; exact h t
    | cons p ps ih =>
      intro idx h t
      rw [List.foldl_cons]
      exact ih _ (nodup_wordFold _ _ h) t
  exact hgen posts emptyIndex (fun t => List.nodup_nil)

end MyBlog

namespace MyBlog

/-! ### Trimming lemmas -/

theorem dropWhile_eq_self_of_head {p : Char → Bool} {l : Str}
    (h : ∀ c, l.head? = some c → p c = false) : l.dropWhile p = l := by
  cases l with
  | nil => rfl
  | cons a t => exact dropWhile_cons_neg (h a rfl) t

theorem getLast?_dropWhile_of_ne_nil {p : Char → Bool} : ∀ (l : Str),
    l.dropWhile p ≠ [] → (l.dropWhile p).getLast? = l.getLast? := by
  intro l
  induction l with
  | nil => intro h; exact absurd rfl h
  | cons a t ih =>
    intro h
    cases hpa : p a with
    | true =>
      rw [dropWhile_cons_pos hpa] at h ⊢
      rw [ih h]
      have ht : t ≠ [] := by
        intro h0
        subst h0
        exact h rfl
      cases t with
      | nil => exact absurd rfl ht
      | cons b t' => rw [List.getLast?_cons_cons]
    | false => rw [dropWhile_cons_neg hpa]

theorem head?_trimA_fail {s : Str} : ∀ c, (trimA s).head? = some c → isSpaceA c = false := by
  intro c hc
  unfold trimA at hc
  rw [List.head?_reverse] at hc
  have hne : (List.dropWhile isSpaceA ((s.dropWhile isSpaceA).reverse)) ≠ [] := by
    intro h0
    rw [h0] at hc
    simp at hc
  rw [getLast?_dropWhile_of_ne_nil _ hne, List.getLast?_reverse] at hc
  exact dropWhile_head_neg s hc

theorem getLast?_trimA_fail {s : Str} : ∀ c, (trimA s).getLast? = some c → isSpaceA c = false := by
  intro c hc
  unfold trimA at hc
  rw [List.getLast?_reverse] at hc
  exact dropWhile_head_neg _ hc

theorem trimA_eq_self {s : Str}
    (h1 : ∀ c, s.head? = some c → isSpaceA c = false)
    (h2 : ∀ c, s.getLast? = some c → isSpaceA c = false) : trimA s = s := by
  unfold trimA
  rw [dropWhile_eq_self_of_head h1,
      dropWhile_eq_self_of_head (fun c hc => h2 c (by rwa [List.head?_reverse] at hc)),
      List.reverse_reverse]

theorem trimA_idem (s : Str) : trimA (trimA s) = trimA s :=
  trimA_eq_self head?_trimA_fail getLast?_trimA_fail

/-! ### Path equations for `search` -/

theorem search_emptyQ {posts : List Post} {idx : Index} {cache : Cache} {query : Str}
    (h : trimA (lowerStr query) = []) :
    search posts idx cache query = ⟨[], cache, .emptyQ⟩ := by
  unfold search
  simp [h]

theorem search_cacheHit {posts : List Post} {idx : Index} {cache : Cache} {query : Str}
    {ids : List Str} (hq : trimA (lowerStr query) ≠ [])
    (hc : cacheGet cache (trimA (lowerStr query)) = some ids) :
    search posts idx cache query = ⟨getPostsByIDs posts ids, cache, .cacheHit⟩ := by
  unfold search
  simp [hq, hc]

theorem search_tagMatch {posts : List Post} {idx : Index} {cache : Cache} {query : Str}
    (hq : trimA (lowerStr query) ≠ [])
    (hc : cacheGet cache (trimA (lowerStr query)) = none)
    (ht : posts.filter (fun post => post.tags.any
        (fun tag => eqFold tag (trimA (trimA (lowerStr query))))) ≠ []) :
    search posts idx cache query =
      ⟨sortByDateDesc (posts.filter (fun post => post.tags.any
          (fun tag => eqFold tag (trimA (trimA (lowerStr query)))))), cache, .tagMatch⟩ := by
  unfold search
  simp [hq, hc, ht]

theorem search_tokenAnd {posts : List Post} {idx : Index} {cache : Cache} {query : Str}
    (hq : trimA (lowerStr query) ≠ [])
    (hc : cacheGet cache (trimA (lowerStr query)) = none)
    (ht : posts.filter (fun post => post.tags.any
        (fun tag => eqFold tag (trimA (trimA (lowerStr query))))) = []) :
    search posts idx cache query =
      ⟨getPostsByIDs posts (andLoop idx (tokenize (trimA (lowerStr query)))),
       cachePut cache (trimA (lowerStr query))
         (andLoop idx (tokenize (trimA (lowerStr query)))), .tokenAnd⟩ := by
  unfold search
  simp [hq, hc, ht]

end MyBlog

namespace MyBlog

/-! ### Sortedness of every search result -/

theorem search_res_sorted (posts : List Post) (idx : Index) (cache : Cache)
    (query : Str) : ((search posts idx cache query).res).Pairwise DateGe := by
  by_cases hq : trimA (lowerStr query) = []
  · rw [search_emptyQ hq]
    exact List.Pairwise.nil
  · cases hc : cacheGet cache (trimA (lowerStr query)) with
    | some ids =>
      rw [search_cacheHit hq hc]
      exact sorted_sortByDateDesc _
    | none =>
      by_cases ht : posts.filter (fun post => post.tags.any
          (fun tag => eqFold tag (trimA (trimA (lowerStr query))))) = []
      · rw [search_tokenAnd hq hc ht]
        exact sorted_sortByDateDesc _
      · rw [search_tagMatch hq hc ht]
        exact sorted_sortByDateDesc _

/-! ### Determinism across map-iteration orders (distinct dates) -/

theorem getPostsByIDs_perm {posts₁ posts₂ : List Post}
    (hperm : List.Perm posts₁ posts₂) (hnd : (posts₁.map Post.id).Nodup)
    (ids : List Str) : getPostsByIDs posts₁ ids = getPostsByIDs posts₂ ids := by
  unfold getPostsByIDs
  have hmap : ids.filterMap (findPost posts₁) = ids.filterMap (findPost posts₂) := by
    induction ids with
    | nil => rfl
    | cons i is ih =>
      rw [List.filterMap_cons, List.filterMap_cons, findPost_perm hperm hnd i, ih]
  rw [hmap]

theorem sortByDateDesc_eq_of_perm {l₁ l₂ : List Post}
    (hperm : List.Perm l₁ l₂)
    (hdist : ∀ p ∈ l₁, ∀ q ∈ l₁, p.date = q.date → p = q) :
    sortByDateDesc l₁ = sortByDateDesc l₂ := by
  have hsortperm : List.Perm (sortByDateDesc l₁) (sortByDateDesc l₂) :=
    (sortByDateDesc_perm l₁).trans (hperm.trans (sortByDateDesc_perm l₂).symm)
  have hstrict : ∀ (l : List Post), List.Perm l l₁ →
      (sortByDateDesc l).Pairwise DStrict := by
    intro l hl
    have hsorted := sorted_sortByDateDesc l
    refine List.Pairwise.imp_of_mem ?_ hsorted
    intro a b ha hb hab
    by_cases he : a.date = b.date
    · right
      exact hdist a (hl.mem_iff.mp (mem_sortByDateDesc.mp ha))
        b (hl.mem_iff.mp (mem_sortByDateDesc.mp hb)) he
    · left
      exact lt_of_le_of_ne hab (fun h => he h.symm)
  exact List.eq_of_perm_of_sorted hsortperm
    (hstrict l₁ (List.Perm.refl l₁)) (hstrict l₂ hperm.symm)

theorem search_perm_deterministic {posts₁ posts₂ : List Post} (idx : Index)
    (cache : Cache) (query : Str) (hperm : List.Perm posts₁ posts₂)
    (hnd : (posts₁.map Post.id).Nodup)
    (hdist : ∀ p ∈ posts₁, ∀ q ∈ posts₁,
      (∃ tag ∈ p.tags, eqFold tag (trimA (lowerStr query)) = true) →
      (∃ tag ∈ q.tags, eqFold tag (trimA (lowerStr query)) = true) →
      p.date = q.date → p = q) :
    search posts₁ idx cache query = search posts₂ idx cache query := by
  by_cases hq : trimA (lowerStr query) = []
  · rw [search_emptyQ hq, search_emptyQ hq]
  · cases hc : cacheGet cache (trimA (lowerStr query)) with
    | some ids =>
      rw [search_cacheHit hq hc, search_cacheHit hq hc,
          getPostsByIDs_perm hperm hnd ids]
    | none =>
      by_cases ht : posts₁.filter (fun post => post.tags.any
          (fun tag => eqFold tag (trimA (trimA (lowerStr query))))) = []
      · have ht₂ : posts₂.filter (fun post => post.tags.any
            (fun tag => eqFold tag (trimA (trimA (lowerStr query))))) = [] := by
          have hpf := hperm.filter (fun post => post.tags.any
            (fun tag => eqFold tag (trimA (trimA (lowerStr query)))))
          rw [ht] at hpf
          exact List.Perm.eq_nil hpf.symm
        rw [search_tokenAnd hq hc ht, search_tokenAnd hq hc ht₂,
            getPostsByIDs_perm hperm hnd _]
      · have ht₂ : posts₂.filter (fun post => post.tags.any
            (fun tag => eqFold tag (trimA (trimA (lowerStr query))))) ≠ [] := by
          intro h0
          have hpf := hperm.filter (fun post => post.tags.any
            (fun tag => eqFold tag (trimA (trimA (lowerStr query)))))
          rw [h0] at hpf
          exact ht (List.Perm.eq_nil hpf)
        rw [search_tagMatch hq hc ht, search_tagMatch hq hc ht₂]
        have hfilterdist : ∀ p ∈ posts₁.filter (fun post => post.tags.any
            (fun tag => eqFold tag (trimA (trimA (lowerStr query))))),
            ∀ q ∈ posts₁.filter (fun post => post.tags.any
            (fun tag => eqFold tag (trimA (trimA (lowerStr query))))),
            p.date = q.date → p = q := by
          intro p hp q hq' he
          obtain ⟨hp₁, hpP⟩ := List.mem_filter.mp hp
          obtain ⟨hq₁, hqP⟩ := List.mem_filter.mp hq'
          simp only [trimA_idem, List.any_eq_true] at hpP hqP
          exact hdist p hp₁ q hq₁ hpP hqP he
        rw [sortByDateDesc_eq_of_perm (hperm.filter _) hfilterdist]

end MyBlog

namespace MyBlog

/-! ### Symbol-only queries tokenize to nothing -/

theorem tokenize_eq_nil_of_no_alnum : ∀ {s : Str},
    (∀ c ∈ s, isAlnum c = false) → tokenize s = [] := by
  intro s
  induction s with
  | nil => intro _; rfl
  | cons a t ih =>
    intro h
    rw [tokenize_cons_neg (h a (List.mem_cons_self a t))]
    exact ih (fun c hc => h c (List.mem_cons_of_mem a hc))

/-! ### The tag filter is empty iff no tag matches -/

theorem filter_tag_eq_nil_iff {posts : List Post} {q : Str} :
    posts.filter (fun post => post.tags.any (fun tag => eqFold tag q)) = [] ↔
      ∀ p ∈ posts, ∀ tag ∈ p.tags, eqFold tag q = false := by
  rw [List.filter_eq_nil_iff]
  constructor
  · intro h p hp tag htag
    cases he : eqFold tag q with
    | false => rfl
    | true => exact absurd (List.any_eq_true.mpr ⟨tag, htag, he⟩) (h p hp)
  · intro h p hp hany
    rw [List.any_eq_true] at hany
    obtain ⟨tag, htag, he⟩ := hany
    rw [h p hp tag htag] at he
    exact absurd he (by simp)

/-! ### One search call never caches a tag-matching key -/

theorem search_cache_preserves (posts : List Post) (idx : Index) (cache : Cache)
    (query : Str)
    (hinv : ∀ k ids, cacheGet cache k = some ids →
      ∀ p ∈ posts, ∀ tag ∈ p.tags, eqFold tag k = false) :
    ∀ k ids, cacheGet (search posts idx cache query).cache k = some ids →
      ∀ p ∈ posts, ∀ tag ∈ p.tags, eqFold tag k = false := by
  by_cases hq : trimA (lowerStr query) = []
  · rw [search_emptyQ hq]; exact hinv
  · cases hc : cacheGet cache (trimA (lowerStr query)) with
    | some ids₀ => rw [search_cacheHit hq hc]; exact hinv
    | none =>
      by_cases ht : posts.filter (fun post => post.tags.any
          (fun tag => eqFold tag (trimA (trimA (lowerStr query))))) = []
      · rw [search_tokenAnd hq hc ht]
        intro k ids hk
        by_cases hknq : k = trimA (lowerStr query)
        · subst hknq
          have ht' : posts.filter (fun post => post.tags.any
              (fun tag => eqFold tag (trimA (lowerStr query)))) = [] := by
            simp only [trimA_idem] at ht
            exact ht
          exact filter_tag_eq_nil_iff.mp ht'
        · rw [cacheGet_cachePut_other _ hknq] at hk
          exact hinv k ids hk
      · rw [search_tagMatch hq hc ht]; exact hinv

theorem runQueries_no_tag_keys (posts : List Post) (idx : Index) :
    ∀ (qs : List Str) (cache : Cache),
    (∀ k ids, cacheGet cache k = some ids →
      ∀ p ∈ posts, ∀ tag ∈ p.tags, eqFold tag k = false) →
    ∀ k ids, cacheGet (runQueries posts idx cache qs) k = some ids →
      ∀ p ∈ posts, ∀ tag ∈ p.tags, eqFold tag k = false := by
  intro qs
  induction qs with
  | nil => intro cache hinv; exact hinv
  | cons q qs ih =>
    intro cache hinv
    exact ih _ (search_cache_preserves posts idx cache q hinv)

/-! ### Suggestion refinement: the JS folds compute the spec pipeline -/

theorem foldl_addSugg_eq_dedup : ∀ (l acc : List Str),
    l.foldl addSugg acc = acc ++ dedupNotIn acc l := by
  intro l
  induction l with
  | nil => intro acc; simp [dedupNotIn]
  | cons s rest ih =>
    intro acc
    rw [List.foldl_cons]
    by_cases hs : s ∈ acc
    · rw [show addSugg acc s = acc from by simp [addSugg, hs],
          show dedupNotIn acc (s :: rest) = dedupNotIn acc rest from by
            simp [dedupNotIn, hs],
          ih]
    · rw [show addSugg acc s = acc ++ [s] from by simp [addSugg, hs],
          show dedupNotIn acc (s :: rest) = s :: dedupNotIn (acc ++ [s]) rest from by
            simp [dedupNotIn, hs],
          ih]
      simp

theorem foldl_if_addSugg (cond : Str → Bool) : ∀ (l acc : List Str),
    l.foldl (fun acc t => if cond t then addSugg acc t else acc) acc
      = (l.filter cond).foldl addSugg acc := by
  intro l
  induction l with
  | nil => intro acc; rfl
  | cons t rest ih =>
    intro acc
    cases hct : cond t with
    | true =>
      simp only [List.foldl_cons, List.filter_cons, hct, if_true]
      exact ih (addSugg acc t)
    | false =>
      simp only [List.foldl_cons, List.filter_cons, hct]
      simp only [Bool.false_eq_true, if_false]
      exact ih acc

theorem tagCandidates_cons (p : Post) (ps : List Post) (q : Str) :
    tagCandidates (p :: ps) q =
      p.tags.filter (fun t => q.isPrefixOf (lowerStr t)) ++ tagCandidates ps q := by
  simp [tagCandidates]

theorem foldl_tags_addSugg (q : Str) : ∀ (posts : List Post) (acc : List Str),
    posts.foldl (fun acc post => post.tags.foldl
      (fun acc tag => if q.isPrefixOf (lowerStr tag) then addSugg acc tag else acc) acc) acc
      = (tagCandidates posts q).foldl addSugg acc := by
  intro posts
  induction posts with
  | nil => intro acc; rfl
  | cons p ps ih =>
    intro acc
    simp only [List.foldl_cons]
    rw [foldl_if_addSugg (fun t => q.isPrefixOf (lowerStr t)) p.tags acc,
        tagCandidates_cons, List.foldl_append]
    exact ih _

theorem titleCandidates_cons (p : Post) (ps : List Post) (q : Str) :
    titleCandidates (p :: ps) q =
      (if isSubstr q (lowerStr p.title) then [p.title] else []) ++ titleCandidates ps q := by
  unfold titleCandidates
  cases hcp : isSubstr q (lowerStr p.title) with
  | true => simp [List.filter_cons, hcp]
  | false => simp [List.filter_cons, hcp]

theorem foldl_title_addSugg (q : Str) : ∀ (posts : List Post) (acc : List Str),
    posts.foldl (fun acc post =>
      if isSubstr q (lowerStr post.title) then addSugg acc post.title else acc) acc
      = (titleCandidates posts q).foldl addSugg acc := by
  intro posts
  induction posts with
  | nil => intro acc; rfl
  | cons p ps ih =>
    intro acc
    simp only [List.foldl_cons]
    rw [titleCandidates_cons, List.foldl_append]
    cases hcp : isSubstr q (lowerStr p.title) with
    | true =>
      simp only [hcp, if_true]
      exact ih _
    | false =>
      simp only [hcp, Bool.false_eq_true, if_false]
      exact ih _

theorem dedupNotIn_append (acc l₁ l₂ : List Str) :
    dedupNotIn acc (l₁ ++ l₂) =
      dedupNotIn acc l₁ ++ dedupNotIn (acc ++ dedupNotIn acc l₁) l₂ := by
  have h1 := foldl_addSugg_eq_dedup (l₁ ++ l₂) acc
  rw [List.foldl_append, foldl_addSugg_eq_dedup l₁ acc,
      foldl_addSugg_eq_dedup l₂ (acc ++ dedupNotIn acc l₁), List.append_assoc] at h1
  exact (List.append_cancel_left h1).symm

theorem getSuggestions_eq_spec (posts : List Post) (query : Str)
    (hne : query ≠ []) (hlen : ¬ (lowerStr (trimA query)).length < 2) :
    getSuggestions posts query = suggestSpec posts (lowerStr (trimA query)) := by
  unfold getSuggestions
  simp only [if_neg hne, if_neg hlen]
  rw [foldl_tags_addSugg, foldl_title_addSugg,
      foldl_addSugg_eq_dedup (tagCandidates posts (lowerStr (trimA query))) [],
      List.nil_append]
  rw [foldl_addSugg_eq_dedup]
  unfold suggestSpec dedupFirst
  rw [dedupNotIn_append]
  simp

end MyBlog

namespace MyBlog

theorem filter_tag_ne_nil_of_match {posts : List Post} {q : Str}
    (h : ∃ p ∈ posts, ∃ tag ∈ p.tags, eqFold tag q = true) :
    posts.filter (fun post => post.tags.any (fun tag => eqFold tag q)) ≠ [] := by
  intro h0
  rw [filter_tag_eq_nil_iff] at h0
  obtain ⟨p, hp, tag, htag, he⟩ := h
  rw [h0 p hp tag htag] at he
  exact absurd he (by simp)

/-! ## The claims -/

/-- C1: when the normalized query is nonempty, is not a cache key, and
equals (case-insensitively) a tag of at least one post, `search` takes
the tag-match path, returns exactly the posts carrying such a tag sorted
by date descending, leaves the cache unchanged, and never consults the
token path (the outcome is identical for every inverted index). -/
theorem c1_tag_precedence (posts : List Post) (idx : Index) (cache : Cache)
    (query : Str)
    (hq : trimA (lowerStr query) ≠ [])
    (hc : cacheGet cache (trimA (lowerStr query)) = none)
    (h : ∃ p ∈ posts, ∃ tag ∈ p.tags, eqFold tag (trimA (lowerStr query)) = true) :
    (search posts idx cache query).path = .tagMatch ∧
    (∀ p, p ∈ (search posts idx cache query).res ↔
      p ∈ posts ∧ ∃ tag ∈ p.tags, eqFold tag (trimA (lowerStr query)) = true) ∧
    ((search posts idx cache query).res).Pairwise DateGe ∧
    (search posts idx cache query).cache = cache ∧
    (∀ idx' : Index, search posts idx' cache query = search posts idx cache query) := by
  have ht : posts.filter (fun post => post.tags.any
      (fun tag => eqFold tag (trimA (trimA (lowerStr query))))) ≠ [] := by
    simp only [trimA_idem]
    exact filter_tag_ne_nil_of_match h
  refine ⟨?_, ?_, ?_, ?_, ?_⟩
  · rw [search_tagMatch hq hc ht]
  · intro p
    rw [search_tagMatch hq hc ht]
    show p ∈ sortByDateDesc _ ↔ _
    rw [mem_sortByDateDesc, List.mem_filter]
    simp only [trimA_idem, List.any_eq_true]
  · exact search_res_sorted posts idx cache query
  · rw [search_tagMatch hq hc ht]
  · intro idx'
    rw [search_tagMatch hq hc ht, search_tagMatch hq hc ht]

/-- C1 witness: the spec example — `p1` tagged `go`, `p2` containing
the token `go` in its body — where query `go` returns exactly `[p1]`. -/
theorem c1_tag_precedence_witness :
    (trimA (lowerStr "go".data) ≠ [] ∧
     cacheGet emptyCache (trimA (lowerStr "go".data)) = none ∧
     (∃ p ∈ [demoP1, demoP2], ∃ tag ∈ p.tags,
        eqFold tag (trimA (lowerStr "go".data)) = true)) ∧
    (search [demoP1, demoP2] (buildInvertedIndex [demoP1, demoP2])
        emptyCache "go".data).res = [demoP1] ∧
    (search [demoP1, demoP2] (buildInvertedIndex [demoP1, demoP2])
        emptyCache "go".data).path = .tagMatch := by
  refine ⟨⟨by decide, by decide, by decide⟩, by decide, ?_⟩
  exact (c1_tag_precedence [demoP1, demoP2] (buildInvertedIndex [demoP1, demoP2])
    emptyCache "go".data (by decide) (by decide) (by decide)).1

/-- C2: when the normalized query is nonempty, uncached, matches no tag,
and tokenizes into at least one word, `search` takes the token path, the
resolved ID set is exactly the intersection of all the words' posting
lists (with the code's early exit), that ID list is stored in the cache
under the normalized query, and the result maps those IDs to posts. -/
theorem c2_and_semantics (posts : List Post) (idx : Index) (cache : Cache)
    (query : Str)
    (hq : trimA (lowerStr query) ≠ [])
    (hc : cacheGet cache (trimA (lowerStr query)) = none)
    (htag : ∀ p ∈ posts, ∀ tag ∈ p.tags, eqFold tag (trimA (lowerStr query)) = false)
    (hw : tokenize (trimA (lowerStr query)) ≠ []) :
    (search posts idx cache query).path = .tokenAnd ∧
    cacheGet (search posts idx cache query).cache (trimA (lowerStr query))
      = some (andLoop idx (tokenize (trimA (lowerStr query)))) ∧
    (∀ x, x ∈ andLoop idx (tokenize (trimA (lowerStr query))) ↔
      ∀ w ∈ tokenize (trimA (lowerStr query)), x ∈ idx (lowerStr w)) ∧
    (search posts idx cache query).res =
      getPostsByIDs posts (andLoop idx (tokenize (trimA (lowerStr query)))) := by
  have ht : posts.filter (fun post => post.tags.any
      (fun tag => eqFold tag (trimA (trimA (lowerStr query))))) = [] := by
    simp only [trimA_idem]
    exact filter_tag_eq_nil_iff.mpr htag
  refine ⟨?_, ?_, ?_, ?_⟩
  · rw [search_tokenAnd hq hc ht]
  · rw [search_tokenAnd hq hc ht]
    exact cacheGet_cachePut_self cache _ _
  · intro x
    exact mem_andLoop hw
  · rw [search_tokenAnd hq hc ht]

/-- C2 witness: the spec example — postings `go -> [p1,p3]`,
`rust -> [p2,p3]`, query `go rust` resolves to exactly `[p3]`. -/
theorem c2_and_semantics_witness :
    (trimA (lowerStr "go rust".data) ≠ [] ∧
     cacheGet emptyCache (trimA (lowerStr "go rust".data)) = none ∧
     (∀ p ∈ ([] : List Post), ∀ tag ∈ p.tags,
        eqFold tag (trimA (lowerStr "go rust".data)) = false) ∧
     tokenize (trimA (lowerStr "go rust".data)) ≠ []) ∧
    andLoop demoIdx (tokenize (trimA (lowerStr "go rust".data))) = ["p3".data] ∧
    cacheGet (search [] demoIdx emptyCache "go rust".data).cache
        (trimA (lowerStr "go rust".data))
      = some (andLoop demoIdx (tokenize (trimA (lowerStr "go rust".data)))) := by
  refine ⟨⟨by decide, by decide, by decide, by decide⟩, by decide, ?_⟩
  exact (c2_and_semantics [] demoIdx emptyCache "go rust".data
    (by decide) (by decide) (by decide) (by decide)).2.1

/-- C3: after building the inverted index over a collection with unique
IDs, a document ID is in the posting list of a normalized (lowercase)
token T exactly when T occurs case-insensitively as a maximal
alphanumeric run in the document's title + " " + body; and no posting
list ever holds the same ID twice. -/
theorem c3_index_invariant (posts : List Post)
    (hnd : (posts.map Post.id).Nodup) (D : Post) (hD : D ∈ posts) (T : Str)
    (hT : lowerStr T = T) :
    (D.id ∈ buildInvertedIndex posts T ↔
      ∃ w, MaxRun w (D.title ++ [' '] ++ D.content) ∧ lowerStr w = lowerStr T) ∧
    (∀ t : Str, (buildInvertedIndex posts t).Nodup) := by
  constructor
  · rw [mem_buildInvertedIndex]
    constructor
    · rintro ⟨p, hp, hid, w, hw, hwt⟩
      have hpD : p = D := List.inj_on_of_nodup_map hnd hp hD hid.symm
      subst hpD
      refine ⟨w, mem_tokenize_iff.mp hw, ?_⟩
      rw [hwt, hT]
    · rintro ⟨w, hmr, hwt⟩
      refine ⟨D, hD, rfl, w, mem_tokenize_iff.mpr hmr, ?_⟩
      rw [hwt]
      exact hT
  · exact nodup_buildInvertedIndex posts

/-- C3 witness: in the two-post suggestion fixture, `s1`'s ID is indexed
under `go` (which occurs as the run `Go` in its title). -/
theorem c3_index_invariant_witness :
    (([demoS1, demoS2].map Post.id).Nodup ∧ demoS1 ∈ [demoS1, demoS2] ∧
      lowerStr "go".data = "go".data) ∧
    demoS1.id ∈ buildInvertedIndex [demoS1, demoS2] "go".data ∧
    (∃ w, MaxRun w (demoS1.title ++ [' '] ++ demoS1.content) ∧
      lowerStr w = lowerStr "go".data) := by
  refine ⟨⟨by decide, by decide, by decide⟩, by decide, ?_⟩
  exact (c3_index_invariant [demoS1, demoS2] (by decide) demoS1 (by decide)
    "go".data (by decide)).1.mp (by decide)

/-- C4: once a query has been resolved through the token path (its ID
list stored in the cache), resolving it again with the same collection
returns the identical ordered result via the cache-hit path, writes
nothing, and does not consult the inverted index at all — the second
call behaves identically under every index. -/
theorem c4_cache_coherence (posts : List Post) (idx : Index) (cache : Cache)
    (query : Str)
    (hpath : (search posts idx cache query).path = .tokenAnd) :
    ∀ idx' : Index,
      (search posts idx' (search posts idx cache query).cache query).res
        = (search posts idx cache query).res ∧
      (search posts idx' (search posts idx cache query).cache query).cache
        = (search posts idx cache query).cache ∧
      (search posts idx' (search posts idx cache query).cache query).path
        = .cacheHit := by
  by_cases hq : trimA (lowerStr query) = []
  · rw [search_emptyQ hq] at hpath
    simp at hpath
  · cases hc : cacheGet cache (trimA (lowerStr query)) with
    | some ids =>
      rw [search_cacheHit hq hc] at hpath
      simp at hpath
    | none =>
      by_cases ht : posts.filter (fun post => post.tags.any
          (fun tag => eqFold tag (trimA (trimA (lowerStr query))))) = []
      · rw [search_tokenAnd hq hc ht]
        intro idx'
        dsimp only
        have hhit := cacheGet_cachePut_self cache (trimA (lowerStr query))
          (andLoop idx (tokenize (trimA (lowerStr query))))
        rw [search_cacheHit hq hhit]
        exact ⟨rfl, rfl, rfl⟩
      · rw [search_tagMatch hq hc ht] at hpath
        simp at hpath

/-- C4 witness: query `great` (a body token of `p2`, not a tag) goes
through the token path; resolving it again hits the cache with the same
result. -/
theorem c4_cache_coherence_witness :
    (search [demoP1, demoP2] (buildInvertedIndex [demoP1, demoP2])
        emptyCache "great".data).path = .tokenAnd ∧
    ((search [demoP1, demoP2] (buildInvertedIndex [demoP1, demoP2])
        (search [demoP1, demoP2] (buildInvertedIndex [demoP1, demoP2])
          emptyCache "great".data).cache "great".data).res
      = (search [demoP1, demoP2] (buildInvertedIndex [demoP1, demoP2])
          emptyCache "great".data).res ∧
     (search [demoP1, demoP2] (buildInvertedIndex [demoP1, demoP2])
        (search [demoP1, demoP2] (buildInvertedIndex [demoP1, demoP2])
          emptyCache "great".data).cache "great".data).path = .cacheHit) := by
  refine ⟨by decide, ?_, ?_⟩
  · exact (c4_cache_coherence [demoP1, demoP2] (buildInvertedIndex [demoP1, demoP2])
      emptyCache "great".data (by decide) (buildInvertedIndex [demoP1, demoP2])).1
  · exact (c4_cache_coherence [demoP1, demoP2] (buildInvertedIndex [demoP1, demoP2])
      emptyCache "great".data (by decide) (buildInvertedIndex [demoP1, demoP2])).2.2

/-- C7: a query whose normalized form matches some tag leaves the cache
exactly as it was, in every cache state (the empty-query, cache-hit and
tag-match returns all skip the cache write). -/
theorem c7_tag_match_cache_frame (posts : List Post) (idx : Index) (cache : Cache)
    (query : Str)
    (h : ∃ p ∈ posts, ∃ tag ∈ p.tags, eqFold tag (trimA (lowerStr query)) = true) :
    (search posts idx cache query).cache = cache := by
  by_cases hq : trimA (lowerStr query) = []
  · rw [search_emptyQ hq]
  · cases hc : cacheGet cache (trimA (lowerStr query)) with
    | some ids => rw [search_cacheHit hq hc]
    | none =>
      have ht : posts.filter (fun post => post.tags.any
          (fun tag => eqFold tag (trimA (trimA (lowerStr query))))) ≠ [] := by
        simp only [trimA_idem]
        exact filter_tag_ne_nil_of_match h
      rw [search_tagMatch hq hc ht]

/-- C7 witness: the tag query `go` over the demo posts leaves a
pre-populated cache untouched. -/
theorem c7_tag_match_cache_frame_witness :
    (∃ p ∈ [demoP1, demoP2], ∃ tag ∈ p.tags,
      eqFold tag (trimA (lowerStr "go".data)) = true) ∧
    (search [demoP1, demoP2] (buildInvertedIndex [demoP1, demoP2])
        [("rust".data, [])] "go".data).cache = [("rust".data, [])] := by
  refine ⟨by decide, ?_⟩
  exact c7_tag_match_cache_frame [demoP1, demoP2]
    (buildInvertedIndex [demoP1, demoP2]) [("rust".data, [])] "go".data (by decide)

/-- C8: a query that trims and lowercases to the empty string returns an
empty result at once, leaves the cache unchanged, and touches neither
structure — the result is the same for every cache and every index. -/
theorem c8_empty_query (posts : List Post) (idx : Index) (cache : Cache)
    (query : Str) (h : trimA (lowerStr query) = []) :
    (search posts idx cache query).res = [] ∧
    (search posts idx cache query).cache = cache ∧
    (search posts idx cache query).path = .emptyQ ∧
    (∀ (idx' : Index) (cache' : Cache),
      (search posts idx' cache' query).res = []) := by
  refine ⟨?_, ?_, ?_, ?_⟩
  · rw [search_emptyQ h]
  · rw [search_emptyQ h]
  · rw [search_emptyQ h]
  · intro idx' cache'
    rw [search_emptyQ h]

/-- C8 witness: the whitespace query returns nothing and writes
nothing. -/
theorem c8_empty_query_witness :
    trimA (lowerStr "   ".data) = [] ∧
    (search [demoP1, demoP2] (buildInvertedIndex [demoP1, demoP2])
        emptyCache "   ".data).res = [] ∧
    (search [demoP1, demoP2] (buildInvertedIndex [demoP1, demoP2])
        emptyCache "   ".data).cache = emptyCache := by
  refine ⟨by decide, ?_, ?_⟩
  · exact (c8_empty_query [demoP1, demoP2] (buildInvertedIndex [demoP1, demoP2])
      emptyCache "   ".data (by decide)).1
  · exact (c8_empty_query [demoP1, demoP2] (buildInvertedIndex [demoP1, demoP2])
      emptyCache "   ".data (by decide)).2.1

/-- C9: starting from an empty cache, after any finite sequence of
searches over a fixed collection, no cached key matches any document tag
case-insensitively — cache entries arise only from the token path, so a
cache hit can never pre-empt tag precedence. -/
theorem c9_cache_never_tag_key (posts : List Post) (idx : Index) (qs : List Str) :
    ∀ k ids, cacheGet (runQueries posts idx emptyCache qs) k = some ids →
      ∀ p ∈ posts, ∀ tag ∈ p.tags, eqFold tag k = false := by
  refine runQueries_no_tag_keys posts idx qs emptyCache ?_
  intro k ids hk
  exact absurd hk (by simp [emptyCache, cacheGet])

/-- C9 witness: after searching `great` the cache holds that key, and
the invariant instantiated there shows no tag matches it. -/
theorem c9_cache_never_tag_key_witness :
    cacheGet (runQueries [demoP1, demoP2] (buildInvertedIndex [demoP1, demoP2])
        emptyCache ["great".data]) "great".data = some ["p2".data] ∧
    (∀ p ∈ [demoP1, demoP2], ∀ tag ∈ p.tags, eqFold tag "great".data = false) := by
  refine ⟨by decide, ?_⟩
  exact c9_cache_never_tag_key [demoP1, demoP2] (buildInvertedIndex [demoP1, demoP2])
    ["great".data] "great".data ["p2".data] (by decide)

/-- C10: a normalized query that is nonempty but all-symbol (no ASCII
alphanumerics), uncached and matching no tag, returns the empty result
yet still writes an empty ID list into the cache under that key. -/
theorem c10_symbol_query_caches_empty (posts : List Post) (idx : Index)
    (cache : Cache) (query : Str)
    (hq : trimA (lowerStr query) ≠ [])
    (hsym : ∀ c ∈ trimA (lowerStr query), isAlnum c = false)
    (hc : cacheGet cache (trimA (lowerStr query)) = none)
    (htag : ∀ p ∈ posts, ∀ tag ∈ p.tags, eqFold tag (trimA (lowerStr query)) = false) :
    (search posts idx cache query).res = [] ∧
    (search posts idx cache query).cache
      = cachePut cache (trimA (lowerStr query)) [] ∧
    cacheGet (search posts idx cache query).cache (trimA (lowerStr query))
      = some [] := by
  have ht : posts.filter (fun post => post.tags.any
      (fun tag => eqFold tag (trimA (trimA (lowerStr query))))) = [] := by
    simp only [trimA_idem]
    exact filter_tag_eq_nil_iff.mpr htag
  have htok : tokenize (trimA (lowerStr query)) = [] :=
    tokenize_eq_nil_of_no_alnum hsym
  refine ⟨?_, ?_, ?_⟩
  · rw [search_tokenAnd hq hc ht, htok]
    rfl
  · rw [search_tokenAnd hq hc ht, htok]
    rfl
  · rw [search_tokenAnd hq hc ht, htok]
    exact cacheGet_cachePut_self cache _ _

/-- C10 witness: the query `!!!` over the demo posts returns nothing but
permanently occupies a cache key with an empty list. -/
theorem c10_symbol_query_caches_empty_witness :
    (trimA (lowerStr "!!!".data) ≠ [] ∧
     (∀ c ∈ trimA (lowerStr "!!!".data), isAlnum c = false)) ∧
    (search [demoP1, demoP2] (buildInvertedIndex [demoP1, demoP2])
        emptyCache "!!!".data).res = [] ∧
    cacheGet (search [demoP1, demoP2] (buildInvertedIndex [demoP1, demoP2])
        emptyCache "!!!".data).cache (trimA (lowerStr "!!!".data)) = some [] := by
  refine ⟨⟨by decide, by decide⟩, ?_, ?_⟩
  · exact (c10_symbol_query_caches_empty [demoP1, demoP2]
      (buildInvertedIndex [demoP1, demoP2]) emptyCache "!!!".data
      (by decide) (by decide) (by decide) (by decide)).1
  · exact (c10_symbol_query_caches_empty [demoP1, demoP2]
      (buildInvertedIndex [demoP1, demoP2]) emptyCache "!!!".data
      (by decide) (by decide) (by decide) (by decide)).2.2

/-- C5 counterexample: two posts sharing tag `go` and an equal date;
presenting the same collection in the two map-iteration orders makes the
same query return the two different orders, so equal-date order is not
deterministic across runs (Go randomizes map iteration). -/
theorem c5_order_counterexample :
    List.Perm [demoE1, demoE2] [demoE2, demoE1] ∧
    (search [demoE1, demoE2] emptyIndex emptyCache "go".data).res
      = [demoE1, demoE2] ∧
    (search [demoE2, demoE1] emptyIndex emptyCache "go".data).res
      = [demoE2, demoE1] ∧
    (search [demoE1, demoE2] emptyIndex emptyCache "go".data).res
      ≠ (search [demoE2, demoE1] emptyIndex emptyCache "go".data).res := by
  refine ⟨List.Perm.swap demoE2 demoE1 [], by decide, by decide, by decide⟩

/-- C5 amended: every result is sorted by date descending, and the whole
search outcome is independent of the map-iteration order whenever the
matched documents — the posts whose tags equal the normalized query
case-insensitively — have pairwise-distinct dates (the cache-hit and
token paths order by deterministic ID lists and need no such condition);
among equal-date matched posts the tag path follows the unspecified
iteration order. -/
theorem c5_order_amended (posts₁ posts₂ : List Post) (idx : Index) (cache : Cache)
    (query : Str) (hperm : List.Perm posts₁ posts₂)
    (hnd : (posts₁.map Post.id).Nodup)
    (hdist : ∀ p ∈ posts₁, ∀ q ∈ posts₁,
      (∃ tag ∈ p.tags, eqFold tag (trimA (lowerStr query)) = true) →
      (∃ tag ∈ q.tags, eqFold tag (trimA (lowerStr query)) = true) →
      p.date = q.date → p = q) :
    ((search posts₁ idx cache query).res).Pairwise DateGe ∧
    search posts₁ idx cache query = search posts₂ idx cache query :=
  ⟨search_res_sorted posts₁ idx cache query,
   search_perm_deterministic idx cache query hperm hnd hdist⟩

/-- C5 amended witness: `f1` (tagged `go`) ties in date with the
untagged `demoP2`, yet the two iteration orders agree on the tag query
`go` because the matched documents (just `f1`) have distinct dates. -/
theorem c5_order_amended_witness :
    (List.Perm [demoF1, demoP2] [demoP2, demoF1] ∧
     ([demoF1, demoP2].map Post.id).Nodup ∧
     (∀ p ∈ [demoF1, demoP2], ∀ q ∈ [demoF1, demoP2],
       (∃ tag ∈ p.tags, eqFold tag (trimA (lowerStr "go".data)) = true) →
       (∃ tag ∈ q.tags, eqFold tag (trimA (lowerStr "go".data)) = true) →
       p.date = q.date → p = q) ∧
     demoF1.date = demoP2.date) ∧
    search [demoF1, demoP2] (buildInvertedIndex [demoF1, demoP2]) emptyCache "go".data
      = search [demoP2, demoF1] (buildInvertedIndex [demoF1, demoP2]) emptyCache "go".data := by
  refine ⟨⟨List.Perm.swap demoP2 demoF1 [], by decide, by decide, by decide⟩, ?_⟩
  exact (c5_order_amended [demoF1, demoP2] [demoP2, demoF1]
    (buildInvertedIndex [demoF1, demoP2]) emptyCache "go".data
    (List.Perm.swap demoP2 demoF1 []) (by decide) (by decide)).2

/-- C6 counterexample: the nonempty normalized prefix `g` prefix-matches
the tag `go`, yet `getSuggestions` returns the empty list — the
minimum-length-2 guard in search.js refutes the claim for one-character
prefixes. -/
theorem c6_suggest_counterexample :
    "go".data ∈ demoS1.tags ∧
    ("g".data).isPrefixOf (lowerStr "go".data) = true ∧
    lowerStr (trimA "g".data) = "g".data ∧
    getSuggestions [demoS1, demoS2] "g".data = [] := by decide

/-- C6 amended: for raw queries whose normalized form has length at
least 2, `getSuggestions` returns exactly the spec pipeline — tags
prefix-matched then titles substring-matched, first-seen deduplication,
truncated to 10. -/
theorem c6_suggest_amended (posts : List Post) (query : Str)
    (hne : query ≠ []) (hlen : ¬ (lowerStr (trimA query)).length < 2) :
    getSuggestions posts query = suggestSpec posts (lowerStr (trimA query)) :=
  getSuggestions_eq_spec posts query hne hlen

/-- C6 amended witness: the spec example — prefix `go` yields the tag
`go` then the title `Go Programming`. -/
theorem c6_suggest_amended_witness :
    ("go".data ≠ [] ∧ ¬ (lowerStr (trimA "go".data)).length < 2) ∧
    getSuggestions [demoS1, demoS2] "go".data
      = suggestSpec [demoS1, demoS2] (lowerStr (trimA "go".data)) ∧
    getSuggestions [demoS1, demoS2] "go".data
      = ["go".data, "Go Programming".data] := by
  refine ⟨⟨by decide, by decide⟩, ?_, by decide⟩
  exact c6_suggest_amended [demoS1, demoS2] "go".data (by decide) (by decide)

end MyBlog

